import Mathlib

/-!
Verification of the fractional-transform engine of the `substance` repository.

The definitions below are a shallow embedding of `src/analysis/FractionalFFT.js`
and of the pattern-detection routines of `src/parsers/TmuxDataParser.js`.
JavaScript `{re, im}` sample objects are modelled by `ℂ`, JavaScript arrays by
`List ℂ`, floating-point arithmetic by exact real arithmetic, and the
`throw new Error('Invalid signal input')` failure by an `Option` result
(`none` = the error was raised).  Loops that build arrays by index are
modelled as maps over `List.range`; out-of-range reads (which do not occur on
the reachable inputs) use `List.getD` with default `0`.
-/

namespace Substance

noncomputable section

open Real Complex

/-- The constructor epsilon: `this.epsilon = 1e-10` in `FractionalFFT`. -/
def fftEpsilon : ℝ := 1 / 10 ^ 10

/-- Source `complexMultiply(a, b)` from FractionalFFT.js. -/
def complexMultiply (a b : ℂ) : ℂ :=
  ⟨a.re * b.re - a.im * b.im, a.re * b.im + a.im * b.re⟩

/-- Source `complexAdd(a, b)` from FractionalFFT.js. -/
def complexAdd (a b : ℂ) : ℂ := ⟨a.re + b.re, a.im + b.im⟩

/-- Source `complexSubtract(a, b)` from FractionalFFT.js. -/
def complexSubtract (a b : ℂ) : ℂ := ⟨a.re - b.re, a.im - b.im⟩

/-- The conjugation pattern `{re: s.re, im: -s.im}` used by `standardIFFT`
and `crossCorrelation`. -/
def conjSample (c : ℂ) : ℂ := ⟨c.re, -c.im⟩

/-- Source `normalizeAlpha(alpha)`: JavaScript `((alpha % 4) + 4) % 4`.  For every
real `alpha`, the JS double-`%` idiom equals `alpha - 4 * ⌊alpha / 4⌋`. -/
def normalizeAlpha (alpha : ℝ) : ℝ := alpha - 4 * ⌊alpha / 4⌋

/-- Source `nextPowerOfTwo(n)`: JavaScript `Math.pow(2, Math.ceil(Math.log2(n)))`,
i.e. `2 ^ ⌈log₂ n⌉`. -/
def nextPowerOfTwo (n : ℕ) : ℕ := 2 ^ Nat.clog 2 n

mutual

/-- The even-index sub-signal `signal.filter((_, i) => i % 2 === 0)` of
`cooleyTukeyFFT`, written as a mutual recursion with `odds`. -/
def evens : List ℂ → List ℂ
  | [] => []
  | a :: t => a :: odds t

/-- The odd-index sub-signal `signal.filter((_, i) => i % 2 === 1)`. -/
def odds : List ℂ → List ℂ
  | [] => []
  | _ :: t => evens t

end

theorem evens_odds_length (t : List ℂ) :
    (evens t).length = (t.length + 1) / 2 ∧ (odds t).length = t.length / 2 := by
  induction t with
  | nil => simp [evens, odds]
  | cons a t ih =>
    obtain ⟨ih1, ih2⟩ := ih
    refine ⟨?_, ?_⟩
    · simp only [evens, List.length_cons]
      omega
    · simp only [odds, List.length_cons]
      omega

/-- The twiddle factor `{re: cos(-2πk/N), im: sin(-2πk/N)}` of
`cooleyTukeyFFT`. -/
def twiddleFactor (N k : ℕ) : ℂ :=
  ⟨Real.cos (-2 * Real.pi * (k : ℝ) / (N : ℝ)),
   Real.sin (-2 * Real.pi * (k : ℝ) / (N : ℝ))⟩

/-- Source `cooleyTukeyFFT(signal)`: the recursive radix-2 decimation.  The two
`result[k] = ...; result[k + N/2] = ...` assignments of the combine loop
(`k < N/2`) produce the first and second halves of the output array. -/
def cooleyTukeyFFT (s : List ℂ) : List ℂ :=
  if _h : s.length ≤ 1 then s
  else
    ((List.range (s.length / 2)).map fun k =>
      complexAdd ((cooleyTukeyFFT (evens s)).getD k 0)
        (complexMultiply (twiddleFactor s.length k) ((cooleyTukeyFFT (odds s)).getD k 0)))
    ++ ((List.range (s.length / 2)).map fun k =>
      complexSubtract ((cooleyTukeyFFT (evens s)).getD k 0)
        (complexMultiply (twiddleFactor s.length k) ((cooleyTukeyFFT (odds s)).getD k 0)))
termination_by s.length
decreasing_by
  all_goals first
    | (have hlen1 := (evens_odds_length s).1; omega)
    | (have hlen2 := (evens_odds_length s).2; omega)

/-- Source `padToPowerOfTwo(signal)`: append zero samples up to `nextPowerOfTwo`. -/
def padToPowerOfTwo (s : List ℂ) : List ℂ :=
  s ++ List.replicate (nextPowerOfTwo s.length - s.length) 0

/-- Source `standardFFT(signal)`: return short signals unchanged, otherwise pad to a
power of two and run Cooley-Tukey. -/
def standardFFT (s : List ℂ) : List ℂ :=
  if s.length ≤ 1 then s else cooleyTukeyFFT (padToPowerOfTwo s)

/-- Source `standardIFFT(signal)`: conjugate, FFT, conjugate and divide by the input
length. -/
def standardIFFT (s : List ℂ) : List ℂ :=
  (standardFFT (s.map conjSample)).map fun c =>
    ⟨c.re / (s.length : ℝ), -c.im / (s.length : ℝ)⟩

/-- Source `fastConvolution(signal1, signal2)`: zero-pad to
`nextPowerOfTwo(2N - 1)`, transform, multiply pointwise, inverse-transform,
truncate to the first `N` samples. -/
def fastConvolution (s1 s2 : List ℂ) : List ℂ :=
  let N := s1.length
  let paddedLength := nextPowerOfTwo (2 * N - 1)
  let padded1 := s1 ++ List.replicate (paddedLength - N) 0
  let padded2 := s2 ++ List.replicate (paddedLength - N) 0
  let product := List.zipWith complexMultiply (standardFFT padded1) (standardFFT padded2)
  (standardIFFT product).take N

/-- Source `chirpConvolution(signal, phi, N)`: build the chirp kernel
`exp(iπk²·cot(φ)/N)` (note: this division by `sin φ` is *not* epsilon-guarded
in the source) and fast-convolve. -/
def chirpConvolution (signal : List ℂ) (phi : ℝ) (N : ℕ) : List ℂ :=
  let cotPhi := Real.cos phi / Real.sin phi
  let kernel := (List.range N).map fun k =>
    (⟨Real.cos (Real.pi * ((k : ℝ) * (k : ℝ)) * cotPhi / (N : ℝ)),
      Real.sin (Real.pi * ((k : ℝ) * (k : ℝ)) * cotPhi / (N : ℝ))⟩ : ℂ)
  fastConvolution signal kernel

/-- Source `computeFractionalFFT(signal, alpha)`: pre-chirp, chirp-convolve,
post-chirp, normalize by `sqrt(|csc φ| / N)`. -/
def computeFractionalFFT (signal : List ℂ) (alpha : ℝ) : List ℂ :=
  let N := signal.length
  let phi := alpha * Real.pi / 2
  let cotPhi := Real.cos phi / (Real.sin phi + fftEpsilon)
  let cscPhi := 1 / (Real.sin phi + fftEpsilon)
  let chirpPre : ℕ → ℂ := fun n =>
    ⟨Real.cos (-Real.pi * ((n : ℝ) * (n : ℝ)) * cotPhi / (N : ℝ)),
     Real.sin (-Real.pi * ((n : ℝ) * (n : ℝ)) * cotPhi / (N : ℝ))⟩
  let chirpPost : ℕ → ℂ := fun n =>
    ⟨Real.cos (Real.pi * ((n : ℝ) * (n : ℝ)) * cotPhi / (N : ℝ)),
     Real.sin (Real.pi * ((n : ℝ) * (n : ℝ)) * cotPhi / (N : ℝ))⟩
  let preChirped := (List.range N).map fun n =>
    complexMultiply (signal.getD n 0) (chirpPre n)
  let convolved := chirpConvolution preChirped phi N
  let normFactor := Real.sqrt (|cscPhi| / (N : ℝ))
  (List.range N).map fun n =>
    let multiplied := complexMultiply (convolved.getD n 0) (chirpPost n)
    (⟨multiplied.re * normFactor, multiplied.im * normFactor⟩ : ℂ)

/-- Source `reverseSignal(signal)`. -/
def reverseSignal (s : List ℂ) : List ℂ := s.reverse

/-- Source `transform(signal, alpha)`: the entry point.  `none` models the
`throw new Error('Invalid signal input')` on an empty signal; the emptiness
test comes before any numeric work, exactly as in the source. -/
def transform (signal : List ℂ) (alpha : ℝ) : Option (List ℂ) :=
  if signal.length = 0 then none
  else
    let a := normalizeAlpha alpha
    if |a| < fftEpsilon then some signal
    else if |a - 1| < fftEpsilon then some (standardFFT signal)
    else if |a - 2| < fftEpsilon then some (reverseSignal signal)
    else some (computeFractionalFFT signal a)

/-- Source `inverse(transformedSignal, alpha)`: `transform(transformedSignal, -alpha)`. -/
def inverse (transformedSignal : List ℂ) (alpha : ℝ) : Option (List ℂ) :=
  transform transformedSignal (-alpha)

/-- Source `transform` including the JS `!signal` null/undefined guard: a `none`
argument models a null/undefined signal. -/
def transformNullable (signal : Option (List ℂ)) (alpha : ℝ) : Option (List ℂ) :=
  match signal with
  | none => none
  | some s => transform s alpha

/-- Source `crossCorrelation(signal1, signal2)`: for each lag in `[0, N)` with
`N = min` of the lengths, the inner loop accumulates
`signal1[n] · conj(signal2[n+lag])` for `n < N - lag`. -/
def crossCorrelation (s1 s2 : List ℂ) : List ℂ :=
  let N := min s1.length s2.length
  (List.range N).map fun lag =>
    (List.range (N - lag)).foldl
      (fun sum n => complexAdd sum (complexMultiply (s1.getD n 0) (conjSample (s2.getD (n + lag) 0))))
      ⟨0, 0⟩

/-- Total energy of a signal: the sum of `re² + im²` over all samples, as in
`calculateTotalEnergy`. -/
def signalEnergy (s : List ℂ) : ℝ := (s.map fun c => c.re * c.re + c.im * c.im).sum

/-- Source `calculateSpectralCentroid(magnitudes)` from FractionalFFT.js: weights are
squared magnitudes; a zero denominator is special-cased to `0`. -/
def calculateSpectralCentroid (magnitudes : List ℝ) : ℝ :=
  let numerator := ((List.range magnitudes.length).map fun i : ℕ =>
    (i : ℝ) * (magnitudes.getD i 0 * magnitudes.getD i 0)).sum
  let denominator := (magnitudes.map fun x => x * x).sum
  if denominator > 0 then numerator / denominator else 0

/-- Source `calculateEntropy(values)` from TmuxDataParser.js: Shannon entropy of the
normalized distribution, with the `total === 0` case returning `0`. -/
def calculateEntropy (values : List ℝ) : ℝ :=
  let total := values.sum
  if total = 0 then 0
  else
    let probabilities := (values.map fun v => v / total).filter (fun p => decide (0 < p));
    -((probabilities.map fun p => p * Real.logb 2 p).sum)

/-- JavaScript `Math.atan2(y, x)`, i.e. the argument of the complex number
`x + y·i` (range `(-π, π]`). -/
def atan2 (y x : ℝ) : ℝ := Complex.arg ⟨x, y⟩

/-- The phase list `transform.map(c => Math.atan2(c.im, c.re))`. -/
def phasesOf (l : List ℂ) : List ℝ := l.map fun c => atan2 c.im c.re

/-- The normalized successive phase difference
`Math.atan2(Math.sin(diff), Math.cos(diff))` at step `i` of a phase list. -/
def normalizedPhaseDiff (p : List ℝ) (i : ℕ) : ℝ :=
  atan2 (Real.sin (p.getD (i + 1) 0 - p.getD i 0)) (Real.cos (p.getD (i + 1) 0 - p.getD i 0))

/-- Source `detectPhaseInversion(phases1, phases2)` from TmuxDataParser.js: the
fraction of successive steps whose normalized phase differences have product
`< -0.5`; lists with fewer than 3 overlapping samples give `0`. -/
def detectPhaseInversion (phases1 phases2 : List ℝ) : ℝ :=
  let minLength := min phases1.length phases2.length
  if minLength < 3 then 0
  else
    let inversionCount := ((List.range (minLength - 1)).filter fun i =>
      decide (normalizedPhaseDiff phases1 i * normalizedPhaseDiff phases2 i < -(1 / 2 : ℝ))).length
    (inversionCount : ℝ) / ((minLength - 1 : ℕ) : ℝ)

/-- The anomaly record pushed by `detectTemporalAnomalies`. -/
structure AnomalyRecord where
  signal : String
  anomalyType : String
  strength : ℝ
  description : String


/-- Source `detectTemporalAnomalies(fractionalAnalysis)` from TmuxDataParser.js,
with the two transform maps given as association lists: for each signal
present in both maps, flag a `temporal_phase_inversion` anomaly when
`detectPhaseInversion` of the two phase lists exceeds `0.6`. -/
def detectTemporalAnomalies (temporalPatterns emergentProperties : List (String × List ℂ)) :
    List AnomalyRecord :=
  temporalPatterns.filterMap fun entry =>
    match emergentProperties.lookup entry.1 with
    | none => none
    | some er =>
      let phaseInversion := detectPhaseInversion (phasesOf entry.2) (phasesOf er)
      if phaseInversion > 0.6 then
        some ⟨entry.1, "temporal_phase_inversion", phaseInversion,
          "Future states appear to influence past states"⟩
      else none

/-- The quantity described by the spec sentence for TemporalAnomaly: the
fraction of successive steps at which the *sign* of the normalized phase
difference of the first list disagrees with that of the second (stated for
comparison with the `detectPhaseInversion` the code computes). -/
def specSignDisagreeFraction (phases1 phases2 : List ℝ) : ℝ :=
  let minLength := min phases1.length phases2.length
  let disagree := ((List.range (minLength - 1)).filter fun i =>
    decide (normalizedPhaseDiff phases1 i * normalizedPhaseDiff phases2 i < 0)).length
  (disagree : ℝ) / ((minLength - 1 : ℕ) : ℝ)

/-- Source `Math.sqrt(c.re² + c.im²)`, the magnitude of one correlation sample. -/
def magnitudeOf (c : ℂ) : ℝ := Real.sqrt (c.re * c.re + c.im * c.im)

/-- JavaScript `Math.max(...l)` for a non-empty list (`0` for the empty list,
which only arises where the source result is unused). -/
def maxOf (l : List ℝ) : ℝ :=
  match l with
  | [] => 0
  | h :: t => t.foldl max h

/-- JavaScript `Array.indexOf`: index of the first occurrence (the list
length when absent; the source only reads it for present values). -/
def indexOfReal (a : ℝ) : List ℝ → ℕ
  | [] => 0
  | x :: t => if x = a then 0 else indexOfReal a t + 1

/-- The inversion record pushed by `detectCausalInversions`. -/
structure InversionRecord where
  signalPair : String
  lag : ℤ
  strength : ℝ
  invType : String
  description : String


/-- Source `detectCausalInversions(fractionalAnalysis)` from TmuxDataParser.js, with
`crossDomainCorrelations` given as an association list: flag pairs whose
correlation-magnitude peak sits more than 2 bins before the midpoint. -/
def detectCausalInversions (crossDomainCorrelations : List (String × List ℂ)) :
    List InversionRecord :=
  crossDomainCorrelations.filterMap fun entry =>
    let magnitudes := entry.2.map magnitudeOf
    let peakIndex := indexOfReal (maxOf magnitudes) magnitudes
    let centerIndex := magnitudes.length / 2
    if (peakIndex : ℤ) < (centerIndex : ℤ) - 2 then
      some ⟨entry.1, (peakIndex : ℤ) - (centerIndex : ℤ),
        magnitudes.getD peakIndex 0 / maxOf magnitudes,
        "causal_inversion",
        "Effect appears " ++ toString ((peakIndex : ℤ) - (centerIndex : ℤ)).natAbs
          ++ " steps before cause"⟩
    else none

/-- The elementary DFT factor `exp(-2πikn/N)`. -/
def dftTerm (N k n : ℕ) : ℂ :=
  Complex.exp (-2 * (Real.pi : ℂ) * Complex.I * (k : ℂ) * (n : ℂ) / (N : ℂ))

/-- The direct DFT `X[k] = Σ_n x[n]·exp(-2πikn/N)` stated by the spec, for
comparison with `standardFFT`. -/
def directDFT (x : List ℂ) : List ℂ :=
  (List.range x.length).map fun k =>
    ∑ n ∈ Finset.range x.length, x.getD n 0 * dftTerm x.length k n

/-! ### Bridge lemmas between the source-shaped operations and Mathlib's `ℂ` -/

theorem complexMultiply_eq_mul (a b : ℂ) : complexMultiply a b = a * b := by
  apply Complex.ext <;> simp [complexMultiply, Complex.mul_re, Complex.mul_im]

theorem complexAdd_eq_add (a b : ℂ) : complexAdd a b = a + b := by
  apply Complex.ext <;> simp [complexAdd]

theorem complexSubtract_eq_sub (a b : ℂ) : complexSubtract a b = a - b := by
  apply Complex.ext <;> simp [complexSubtract]

theorem conjSample_eq_conj (c : ℂ) : conjSample c = (starRingEnd ℂ) c := by
  apply Complex.ext <;> simp [conjSample]

theorem normalizeAlpha_eq (a : ℝ) (k : ℤ) (h1 : (k : ℝ) ≤ a / 4) (h2 : a / 4 < k + 1) :
    normalizeAlpha a = a - 4 * k := by
  unfold normalizeAlpha
  rw [Int.floor_eq_iff.mpr ⟨h1, h2⟩]

theorem normalizeAlpha_zero : normalizeAlpha 0 = 0 := by
  have := normalizeAlpha_eq 0 0 (by norm_num) (by norm_num)
  simpa using this

theorem normalizeAlpha_one : normalizeAlpha 1 = 1 := by
  have := normalizeAlpha_eq 1 0 (by norm_num) (by norm_num)
  simpa using this

theorem normalizeAlpha_two : normalizeAlpha 2 = 2 := by
  have := normalizeAlpha_eq 2 0 (by norm_num) (by norm_num)
  simpa using this

theorem normalizeAlpha_quarter : normalizeAlpha (1 / 4) = 1 / 4 := by
  have := normalizeAlpha_eq (1 / 4) 0 (by norm_num) (by norm_num)
  simpa using this

theorem normalizeAlpha_neg_quarter : normalizeAlpha (-(1 / 4)) = 15 / 4 := by
  have := normalizeAlpha_eq (-(1 / 4)) (-1) (by norm_num) (by norm_num)
  rw [this]
  norm_num

theorem normalizeAlpha_half : normalizeAlpha (1 / 2) = 1 / 2 := by
  have := normalizeAlpha_eq (1 / 2) 0 (by norm_num) (by norm_num)
  simpa using this

theorem fftEpsilon_pos : (0 : ℝ) < fftEpsilon := by norm_num [fftEpsilon]

theorem length_ne_zero_of_ne_nil (s : List ℂ) (h : s ≠ []) : ¬ s.length = 0 := by
  simpa [List.length_eq_zero] using h

/-- The three special-case branches of `transform`, worked out. -/
theorem transform_order_zero (s : List ℂ) (h : s ≠ []) : transform s 0 = some s := by
  simp only [transform, length_ne_zero_of_ne_nil s h, if_false, normalizeAlpha_zero]
  rw [if_pos]
  rw [abs_zero]
  exact fftEpsilon_pos

theorem transform_order_one (s : List ℂ) (h : s ≠ []) : transform s 1 = some (standardFFT s) := by
  simp only [transform, length_ne_zero_of_ne_nil s h, if_false, normalizeAlpha_one]
  rw [if_neg (by rw [abs_one]; norm_num [fftEpsilon]), if_pos (by simpa using fftEpsilon_pos)]

theorem transform_order_two (s : List ℂ) (h : s ≠ []) :
    transform s 2 = some (reverseSignal s) := by
  simp only [transform, length_ne_zero_of_ne_nil s h, if_false, normalizeAlpha_two]
  rw [if_neg (by norm_num [fftEpsilon]), if_neg (by norm_num [fftEpsilon]),
    if_pos (by simpa using fftEpsilon_pos)]

/-! ### List indexing lemmas -/

theorem map_range_getD (f : ℕ → ℂ) (m k : ℕ) (hk : k < m) (d : ℂ) :
    ((List.range m).map f).getD k d = f k := by
  rw [List.getD_eq_getElem?_getD, List.getElem?_map, List.getElem?_range hk]
  rfl

theorem evens_odds_getD (t : List ℂ) :
    (∀ j, (evens t).getD j 0 = t.getD (2 * j) 0) ∧
      (∀ j, (odds t).getD j 0 = t.getD (2 * j + 1) 0) := by
  induction t with
  | nil => constructor <;> intro j <;> simp [evens, odds]
  | cons a t ih =>
    obtain ⟨ih1, ih2⟩ := ih
    constructor
    · intro j
      cases j with
      | zero => simp [evens]
      | succ j =>
        have h2 : 2 * (j + 1) = (2 * j + 1) + 1 := by ring
        simp only [evens, List.getD_cons_succ, h2]
        exact ih2 j
    · intro j
      have h2 : 2 * j + 1 = (2 * j) + 1 := rfl
      simp only [odds, h2, List.getD_cons_succ]
      exact ih1 j

theorem directDFT_length (x : List ℂ) : (directDFT x).length = x.length := by
  simp [directDFT]

theorem directDFT_getD (x : List ℂ) (k : ℕ) (hk : k < x.length) :
    (directDFT x).getD k 0 = ∑ n ∈ Finset.range x.length, x.getD n 0 * dftTerm x.length k n :=
  map_range_getD _ _ _ hk _

theorem directDFT_singleton (a : ℂ) : directDFT [a] = [a] := by
  simp [directDFT, dftTerm]

/-! ### Exponential-factor identities used by the FFT correctness proof -/

theorem dftTerm_even (M k j : ℕ) (hM : 0 < M) : dftTerm (2 * M) k (2 * j) = dftTerm M k j := by
  unfold dftTerm
  congr 1
  have hMne : ((M : ℂ)) ≠ 0 := Nat.cast_ne_zero.mpr hM.ne'
  push_cast
  field_simp
  ring

theorem dftTerm_odd (M k j : ℕ) (hM : 0 < M) :
    dftTerm (2 * M) k (2 * j + 1) = dftTerm (2 * M) k 1 * dftTerm M k j := by
  unfold dftTerm
  rw [← Complex.exp_add]
  congr 1
  have hMne : ((M : ℂ)) ≠ 0 := Nat.cast_ne_zero.mpr hM.ne'
  push_cast
  field_simp
  ring

theorem dftTerm_shift (M k j : ℕ) (hM : 0 < M) : dftTerm M (k + M) j = dftTerm M k j := by
  unfold dftTerm
  have hMne : ((M : ℂ)) ≠ 0 := Nat.cast_ne_zero.mpr hM.ne'
  have harg : (-2 * (Real.pi : ℂ) * Complex.I * ((k + M : ℕ) : ℂ) * (j : ℂ) / (M : ℂ))
      = (-2 * (Real.pi : ℂ) * Complex.I * (k : ℂ) * (j : ℂ) / (M : ℂ))
        + ((-(j : ℤ) : ℤ) : ℂ) * (2 * (Real.pi : ℂ) * Complex.I) := by
    push_cast
    field_simp
    ring
  rw [harg, Complex.exp_add, Complex.exp_int_mul_two_pi_mul_I, mul_one]

theorem dftTerm_half_period (M k : ℕ) (hM : 0 < M) :
    dftTerm (2 * M) (k + M) 1 = -dftTerm (2 * M) k 1 := by
  unfold dftTerm
  have hMne : ((M : ℂ)) ≠ 0 := Nat.cast_ne_zero.mpr hM.ne'
  have harg : (-2 * (Real.pi : ℂ) * Complex.I * ((k + M : ℕ) : ℂ) * ((1 : ℕ) : ℂ) / ((2 * M : ℕ) : ℂ))
      = (-2 * (Real.pi : ℂ) * Complex.I * (k : ℂ) * ((1 : ℕ) : ℂ) / ((2 * M : ℕ) : ℂ))
        + -((Real.pi : ℂ) * Complex.I) := by
    push_cast
    field_simp
    ring
  rw [harg, Complex.exp_add, Complex.exp_neg, Complex.exp_pi_mul_I]
  norm_num

theorem twiddleFactor_eq_dftTerm (N k : ℕ) : twiddleFactor N k = dftTerm N k 1 := by
  unfold twiddleFactor dftTerm
  rw [Complex.mk_eq_add_mul_I, Complex.ofReal_cos, Complex.ofReal_sin, ← Complex.exp_mul_I]
  congr 1
  push_cast
  ring

theorem sum_range_double (M : ℕ) (f : ℕ → ℂ) :
    ∑ n ∈ Finset.range (2 * M), f n
      = (∑ j ∈ Finset.range M, f (2 * j)) + ∑ j ∈ Finset.range M, f (2 * j + 1) := by
  induction M with
  | zero => simp
  | succ M ih =>
    have h2 : 2 * (M + 1) = 2 * M + 1 + 1 := by ring
    rw [h2, Finset.sum_range_succ, Finset.sum_range_succ, ih, Finset.sum_range_succ,
      Finset.sum_range_succ]
    ring

theorem dft_split_low (s : List ℂ) (M k : ℕ) (hM : 0 < M) :
    (∑ n ∈ Finset.range (2 * M), s.getD n 0 * dftTerm (2 * M) k n)
      = (∑ j ∈ Finset.range M, (evens s).getD j 0 * dftTerm M k j)
        + dftTerm (2 * M) k 1 * ∑ j ∈ Finset.range M, (odds s).getD j 0 * dftTerm M k j := by
  rw [sum_range_double M (fun n => s.getD n 0 * dftTerm (2 * M) k n)]
  congr 1
  · exact Finset.sum_congr rfl fun j _ => by
      rw [(evens_odds_getD s).1 j, dftTerm_even M k j hM]
  · rw [Finset.mul_sum]
    exact Finset.sum_congr rfl fun j _ => by
      rw [(evens_odds_getD s).2 j, dftTerm_odd M k j hM]
      ring

theorem dft_split_high (s : List ℂ) (M k : ℕ) (hM : 0 < M) :
    (∑ n ∈ Finset.range (2 * M), s.getD n 0 * dftTerm (2 * M) (k + M) n)
      = (∑ j ∈ Finset.range M, (evens s).getD j 0 * dftTerm M k j)
        - dftTerm (2 * M) k 1 * ∑ j ∈ Finset.range M, (odds s).getD j 0 * dftTerm M k j := by
  rw [dft_split_low s M (k + M) hM, dftTerm_half_period M k hM]
  have hE : (∑ j ∈ Finset.range M, (evens s).getD j 0 * dftTerm M (k + M) j)
      = ∑ j ∈ Finset.range M, (evens s).getD j 0 * dftTerm M k j :=
    Finset.sum_congr rfl fun j _ => by rw [dftTerm_shift M k j hM]
  have hO : (∑ j ∈ Finset.range M, (odds s).getD j 0 * dftTerm M (k + M) j)
      = ∑ j ∈ Finset.range M, (odds s).getD j 0 * dftTerm M k j :=
    Finset.sum_congr rfl fun j _ => by rw [dftTerm_shift M k j hM]
  rw [hE, hO]
  ring

/-- Correctness of the recursive Cooley-Tukey FFT on power-of-two lengths:
it computes exactly the direct DFT. -/
theorem cooleyTukey_eq_directDFT (m : ℕ) (s : List ℂ) (hs : s.length = 2 ^ m) :
    cooleyTukeyFFT s = directDFT s := by
  induction m generalizing s with
  | zero =>
    cases s with
    | nil => simp at hs
    | cons a t =>
      cases t with
      | nil =>
        unfold cooleyTukeyFFT
        simp [directDFT_singleton]
      | cons b t2 => simp at hs
  | succ m ih =>
    have hM : 0 < 2 ^ m := pow_pos (by norm_num) m
    have hs2 : s.length = 2 * 2 ^ m := by rw [hs]; ring
    have hE : (evens s).length = 2 ^ m := by have h1 := (evens_odds_length s).1; omega
    have hO : (odds s).length = 2 ^ m := by have h1 := (evens_odds_length s).2; omega
    have hlen : ¬ s.length ≤ 1 := by omega
    have hd2 : s.length / 2 = 2 ^ m := by omega
    unfold cooleyTukeyFFT
    rw [dif_neg hlen, ih (evens s) hE, ih (odds s) hO, hd2]
    apply List.ext_getElem
    · simp only [List.length_append, List.length_map, List.length_range, directDFT_length]
      omega
    · intro i hi1 hi2
      rw [directDFT_length] at hi2
      have hgoal : getElem (directDFT s) i (by rw [directDFT_length]; exact hi2)
          = ∑ n ∈ Finset.range (2 * 2 ^ m), s.getD n 0 * dftTerm (2 * 2 ^ m) i n := by
        simp only [directDFT, List.getElem_map, List.getElem_range, hs2]
      rw [hgoal]
      by_cases hcase : i < 2 ^ m
      · rw [List.getElem_append_left (by simpa using hcase)]
        simp only [List.getElem_map, List.getElem_range]
        rw [complexAdd_eq_add, complexMultiply_eq_mul, twiddleFactor_eq_dftTerm,
          directDFT_getD (evens s) i (by omega), directDFT_getD (odds s) i (by omega),
          hE, hO, hs2, dft_split_low s (2 ^ m) i hM]
      · have hile : ((List.range (2 ^ m)).map fun k =>
            complexAdd ((directDFT (evens s)).getD k 0)
              (complexMultiply (twiddleFactor s.length k)
                ((directDFT (odds s)).getD k 0))).length ≤ i := by
          simpa using not_lt.mp hcase
        rw [List.getElem_append_right hile]
        have hidx : i - ((List.range (2 ^ m)).map fun k =>
            complexAdd ((directDFT (evens s)).getD k 0)
              (complexMultiply (twiddleFactor s.length k)
                ((directDFT (odds s)).getD k 0))).length = i - 2 ^ m := by
          simp
        have hklt : i - 2 ^ m < 2 ^ m := by omega
        have hik : i = (i - 2 ^ m) + 2 ^ m := by omega
        simp only [hidx, List.getElem_map, List.getElem_range]
        rw [complexSubtract_eq_sub, complexMultiply_eq_mul, twiddleFactor_eq_dftTerm,
          directDFT_getD (evens s) (i - 2 ^ m) (by omega),
          directDFT_getD (odds s) (i - 2 ^ m) (by omega),
          hE, hO, hs2]
        conv_rhs => rw [hik]
        rw [dft_split_high s (2 ^ m) (i - 2 ^ m) hM]

theorem le_nextPowerOfTwo (n : ℕ) : n ≤ nextPowerOfTwo n :=
  Nat.le_pow_clog (by norm_num) n

theorem padToPowerOfTwo_length (s : List ℂ) :
    (padToPowerOfTwo s).length = nextPowerOfTwo s.length := by
  have h := le_nextPowerOfTwo s.length
  simp only [padToPowerOfTwo, List.length_append, List.length_replicate]
  omega

/-- Source `standardFFT` computes the direct DFT of the zero-padded input. -/
theorem standardFFT_eq_directDFT (s : List ℂ) (h : s ≠ []) :
    standardFFT s = directDFT (padToPowerOfTwo s) := by
  unfold standardFFT
  by_cases hlen : s.length ≤ 1
  · rw [if_pos hlen]
    obtain ⟨a, t, rfl⟩ := List.exists_cons_of_ne_nil h
    have ht : t = [] := by
      cases t with
      | nil => rfl
      | cons b t2 => simp at hlen
    subst ht
    have hpad : padToPowerOfTwo [a] = [a] := by
      simp [padToPowerOfTwo, nextPowerOfTwo, Nat.clog_one_right]
    rw [hpad, directDFT_singleton]
  · rw [if_neg hlen]
    exact cooleyTukey_eq_directDFT (Nat.clog 2 s.length) (padToPowerOfTwo s)
      (padToPowerOfTwo_length s)

theorem standardFFT_length (s : List ℂ) (h : s ≠ []) :
    (standardFFT s).length = if s.length ≤ 1 then s.length else nextPowerOfTwo s.length := by
  rw [standardFFT_eq_directDFT s h, directDFT_length, padToPowerOfTwo_length]
  by_cases hlen : s.length ≤ 1
  · rw [if_pos hlen]
    have h1 : s.length = 1 := by
      have := length_ne_zero_of_ne_nil s h
      omega
    rw [h1]
    simp [nextPowerOfTwo, Nat.clog_one_right]
  · rw [if_neg hlen]

theorem computeFractionalFFT_length (s : List ℂ) (a : ℝ) :
    (computeFractionalFFT s a).length = s.length := by
  simp [computeFractionalFFT]

theorem nextPowerOfTwo_two : nextPowerOfTwo 2 = 2 := by
  rw [nextPowerOfTwo, Nat.clog_eq_one (by norm_num) (by norm_num)]
  norm_num

theorem nextPowerOfTwo_three : nextPowerOfTwo 3 = 4 := by
  rw [nextPowerOfTwo, Nat.clog_of_two_le (by norm_num) (by norm_num)]
  norm_num
  rw [Nat.clog_eq_one (by norm_num) (by norm_num)]
  norm_num

/-! ### Evaluation of the chirp path on one-sample signals -/

theorem mk_one_complex : (⟨1, 0⟩ : ℂ) = 1 := by
  apply Complex.ext <;> simp

theorem complexMultiply_one_right (x : ℂ) : complexMultiply x ⟨1, 0⟩ = x := by
  rw [mk_one_complex, complexMultiply_eq_mul, mul_one]

theorem nextPowerOfTwo_one : nextPowerOfTwo 1 = 1 := by
  rw [nextPowerOfTwo, Nat.clog_one_right]
  norm_num

theorem standardFFT_singleton (x : ℂ) : standardFFT [x] = [x] := by
  simp [standardFFT]

theorem standardIFFT_singleton (x : ℂ) : standardIFFT [x] = [x] := by
  simp only [standardIFFT, List.map_cons, List.map_nil, conjSample, standardFFT_singleton]
  simp

theorem fastConvolution_singleton (x y : ℂ) : fastConvolution [x] [y] = [complexMultiply x y] := by
  simp only [fastConvolution, List.length_cons, List.length_nil]
  have h1 : nextPowerOfTwo (2 * 1 - 1) = 1 := by
    norm_num [nextPowerOfTwo_one]
  rw [h1]
  simp [standardFFT_singleton, standardIFFT_singleton]

theorem complexMultiply_one_right' (x : ℂ) : complexMultiply x 1 = x := by
  rw [complexMultiply_eq_mul, mul_one]

theorem list_range_one_eval : List.range 1 = [0] := by
  rfl

theorem chirpConvolution_singleton (x : ℂ) (phi : ℝ) : chirpConvolution [x] phi 1 = [x] := by
  simp [chirpConvolution, list_range_one_eval, fastConvolution_singleton,
    complexMultiply_one_right, complexMultiply_one_right']

theorem computeFractionalFFT_singleton (x : ℂ) (alpha : ℝ) :
    computeFractionalFFT [x] alpha
      = [⟨x.re * Real.sqrt |1 / (Real.sin (alpha * Real.pi / 2) + fftEpsilon)|,
          x.im * Real.sqrt |1 / (Real.sin (alpha * Real.pi / 2) + fftEpsilon)|⟩] := by
  simp [computeFractionalFFT, list_range_one_eval, chirpConvolution_singleton,
    complexMultiply_one_right, complexMultiply_one_right']

theorem transform_general (s : List ℂ) (alpha : ℝ) (h : s ≠ [])
    (h0 : ¬ |normalizeAlpha alpha| < fftEpsilon)
    (h1 : ¬ |normalizeAlpha alpha - 1| < fftEpsilon)
    (h2 : ¬ |normalizeAlpha alpha - 2| < fftEpsilon) :
    transform s alpha = some (computeFractionalFFT s (normalizeAlpha alpha)) := by
  simp only [transform, if_neg (length_ne_zero_of_ne_nil s h), if_neg h0, if_neg h1, if_neg h2]

/-! ### Claim theorems -/

/-- Claim C1: for every non-empty signal, the order-1 fractional transform is
exactly the direct DFT `X[k] = Σ_n x[n]·exp(-2πikn/N)` of the (zero-padded,
if needed) signal — in the exact real-arithmetic semantics the two agree
sample by sample, hence certainly within the stated floating tolerance. -/
theorem claim_C1_order_one_is_direct_dft (s : List ℂ) (h : s ≠ []) :
    transform s 1 = some (directDFT (padToPowerOfTwo s)) := by
  rw [transform_order_one s h, standardFFT_eq_directDFT s h]

theorem claim_C1_witness :
    transform [(1 : ℂ), 0] 1 = some (directDFT (padToPowerOfTwo [(1 : ℂ), 0])) :=
  claim_C1_order_one_is_direct_dft [(1 : ℂ), 0] (by simp)

/-- Claim C3: `transform(signal, 0)` returns the input signal itself, sample
for sample, with no arithmetic applied to any sample (the identity branch
returns a copy of the input array), and the input is not modified. -/
theorem claim_C3_order_zero_identity (s : List ℂ) (h : s ≠ []) :
    transform s 0 = some s :=
  transform_order_zero s h

theorem claim_C3_witness :
    transform [(⟨1, 2⟩ : ℂ), ⟨-3, 4⟩] 0 = some [(⟨1, 2⟩ : ℂ), ⟨-3, 4⟩] :=
  claim_C3_order_zero_identity [(⟨1, 2⟩ : ℂ), ⟨-3, 4⟩] (by simp)

/-- Claim C5: the `InvalidSignal` error (modelled by `none`) is raised exactly
for a null/undefined signal or a signal of length 0, and for no non-empty
signal; the emptiness test is the first thing `transform` does. -/
theorem claim_C5_invalid_signal_iff (s? : Option (List ℂ)) (alpha : ℝ) :
    transformNullable s? alpha = none ↔ s? = none ∨ s? = some [] := by
  cases s? with
  | none => simp [transformNullable]
  | some s =>
    simp only [transformNullable]
    constructor
    · intro hnone
      by_cases hs : s.length = 0
      · right
        have : s = [] := List.length_eq_zero.mp hs
        rw [this]
      · exfalso
        simp only [transform, if_neg hs] at hnone
        split_ifs at hnone
    · intro hor
      rcases hor with h | h
      · simp at h
      · have hs : s = [] := by simpa using h
        subst hs
        simp [transform]

/-- Claim C4 counterexample: at order 1 a length-3 signal produces a length-4
output (the zero-padded FFT), not a length-3 one. -/
theorem claim_C4_counterexample :
    (transform [(1 : ℂ), 1, 1] 1).map List.length = some 4 ∧
      (transform [(1 : ℂ), 1, 1] 1).map List.length ≠ some [(1 : ℂ), 1, 1].length := by
  have he : (transform [(1 : ℂ), 1, 1] 1).map List.length = some 4 := by
    rw [transform_order_one _ (by simp)]
    simp only [Option.map_some']
    rw [standardFFT_length _ (by simp)]
    rw [if_neg (by simp)]
    simp [nextPowerOfTwo_three]
  exact ⟨he, by rw [he]; simp⟩

/-- Claim C4, amended: the output of `transform` has the length of the input
except on the order-1 branch with an input of length ≥ 2, where it has length
`nextPowerOfTwo` of the input length (equal to the input length only for
power-of-two inputs). -/
theorem claim_C4_amended_length (s : List ℂ) (alpha : ℝ) (h : s ≠ []) :
    (transform s alpha).map List.length
      = some (if |normalizeAlpha alpha - 1| < fftEpsilon ∧ 2 ≤ s.length
          then nextPowerOfTwo s.length else s.length) := by
  unfold transform
  rw [if_neg (length_ne_zero_of_ne_nil s h)]
  by_cases h0 : |normalizeAlpha alpha| < fftEpsilon
  · rw [if_pos h0]
    have hcond : ¬ (|normalizeAlpha alpha - 1| < fftEpsilon ∧ 2 ≤ s.length) := by
      intro hc
      have h1 := hc.1
      have habs : (1 : ℝ) = |normalizeAlpha alpha - (normalizeAlpha alpha - 1)| := by norm_num
      have hle := abs_sub (normalizeAlpha alpha) (normalizeAlpha alpha - 1)
      rw [← habs] at hle
      have : (1 : ℝ) < 2 * fftEpsilon := by
        calc (1 : ℝ) ≤ |normalizeAlpha alpha| + |normalizeAlpha alpha - 1| := hle
        _ < fftEpsilon + fftEpsilon := by exact add_lt_add h0 h1
        _ = 2 * fftEpsilon := by ring
      norm_num [fftEpsilon] at this
    rw [if_neg hcond]
    simp
  · rw [if_neg h0]
    by_cases h1 : |normalizeAlpha alpha - 1| < fftEpsilon
    · rw [if_pos h1]
      simp only [Option.map_some']
      rw [standardFFT_length s h]
      by_cases h2 : s.length ≤ 1
      · rw [if_pos h2, if_neg (by omega)]
      · rw [if_neg h2, if_pos ⟨h1, by omega⟩]
    · rw [if_neg h1]
      have hrhs : (if |normalizeAlpha alpha - 1| < fftEpsilon ∧ 2 ≤ s.length
          then nextPowerOfTwo s.length else s.length) = s.length := if_neg fun hc => h1 hc.1
      rw [hrhs]
      by_cases h2 : |normalizeAlpha alpha - 2| < fftEpsilon
      · rw [if_pos h2]
        simp [reverseSignal]
      · rw [if_neg h2]
        simp [computeFractionalFFT_length]

theorem claim_C4_witness :
    (transform [(1 : ℂ)] (1 / 2)).map List.length
      = some (if |normalizeAlpha (1 / 2) - 1| < fftEpsilon ∧ 2 ≤ [(1 : ℂ)].length
          then nextPowerOfTwo [(1 : ℂ)].length else [(1 : ℂ)].length) :=
  claim_C4_amended_length [(1 : ℂ)] (1 / 2) (by simp)

/-- Claim C6 counterexample: already at order 1 on `[1, 0]` the output is
`[1, 1]`, whose total energy is 2 while the input energy is 1 — the
unnormalized FFT multiplies energy by `N`, so energy is not conserved within
any floating-error tolerance. -/
theorem claim_C6_counterexample :
    transform [(1 : ℂ), 0] 1 = some [1, 1] ∧
      signalEnergy [(1 : ℂ), (1 : ℂ)] = 2 ∧ signalEnergy [(1 : ℂ), 0] = 1 := by
  refine ⟨?_, ?_, ?_⟩
  · rw [transform_order_one _ (by simp), standardFFT_eq_directDFT _ (by simp)]
    have hpad : padToPowerOfTwo [(1 : ℂ), 0] = [(1 : ℂ), 0] := by
      simp [padToPowerOfTwo, nextPowerOfTwo_two]
    rw [hpad]
    have hr : List.range 2 = [0, 1] := by rfl
    simp [directDFT, hr, dftTerm, Finset.sum_range_succ]
  · simp [signalEnergy]
    norm_num
  · simp [signalEnergy]

/-- Claim C6, amended: total energy is conserved exactly on the order-0
(identity) and order-2 (time-reversal) branches; it is not conserved in
general (order 1 scales it by the padded length, as the counterexample
shows). -/
theorem claim_C6_amended_energy (s : List ℂ) (h : s ≠ []) :
    (transform s 0).map signalEnergy = some (signalEnergy s) ∧
      (transform s 2).map signalEnergy = some (signalEnergy s) := by
  constructor
  · rw [transform_order_zero s h]
    rfl
  · rw [transform_order_two s h]
    simp only [Option.map_some']
    congr 1
    simp [signalEnergy, reverseSignal, List.map_reverse, List.sum_reverse]

theorem claim_C6_witness :
    (transform [(⟨3, 4⟩ : ℂ)] 0).map signalEnergy = some (signalEnergy [(⟨3, 4⟩ : ℂ)]) ∧
      (transform [(⟨3, 4⟩ : ℂ)] 2).map signalEnergy = some (signalEnergy [(⟨3, 4⟩ : ℂ)]) :=
  claim_C6_amended_energy [(⟨3, 4⟩ : ℂ)] (by simp)

/-- Claim C8: on an all-zero magnitude vector both the entropy and the
spectral centroid take the special-cased value 0 (the zero denominator is
tested for, so no division by zero is performed); in the exact real
semantics every result of these routines is a (finite) real number. -/
theorem claim_C8_degenerate_zero (values : List ℝ) (h : ∀ v ∈ values, v = 0) :
    calculateEntropy values = 0 ∧ calculateSpectralCentroid values = 0 := by
  constructor
  · simp only [calculateEntropy]
    rw [if_pos (List.sum_eq_zero h)]
  · simp only [calculateSpectralCentroid]
    have hden : (values.map fun x => x * x).sum = 0 := by
      apply List.sum_eq_zero
      intro y hy
      obtain ⟨x, hx, rfl⟩ := List.mem_map.mp hy
      rw [h x hx]
      ring
    rw [hden, if_neg (lt_irrefl 0)]

theorem claim_C8_witness :
    calculateEntropy [0, 0, 0] = 0 ∧ calculateSpectralCentroid [0, 0, 0] = 0 :=
  claim_C8_degenerate_zero [0, 0, 0] (by simp)

theorem foldl_complexAdd_eq_sum (f : ℕ → ℂ) (m : ℕ) (init : ℂ) :
    (List.range m).foldl (fun sum n => complexAdd sum (f n)) init
      = init + ∑ n ∈ Finset.range m, f n := by
  induction m with
  | zero => simp
  | succ m ih =>
    rw [List.range_succ, List.foldl_append, ih, List.foldl_cons, List.foldl_nil,
      complexAdd_eq_add, Finset.sum_range_succ]
    ring

/-- Claim C9: `crossCorrelation` returns `min(len s1, len s2)` lags, and the
entry at each lag is the sum `Σ_{n < N - lag} s1[n]·conj(s2[n+lag])` (the
terms with `n + lag ≥ N` being omitted); over the exact reals every entry is
a finite complex number. -/
theorem claim_C9_crossCorrelation (s1 s2 : List ℂ) (lag : ℕ) (h1 : s1 ≠ []) (h2 : s2 ≠ [])
    (hlag : lag < min s1.length s2.length) :
    (crossCorrelation s1 s2).length = min s1.length s2.length ∧
      (crossCorrelation s1 s2).getD lag 0
        = ∑ n ∈ Finset.range (min s1.length s2.length - lag),
            s1.getD n 0 * (starRingEnd ℂ) (s2.getD (n + lag) 0) := by
  constructor
  · simp [crossCorrelation]
  · simp only [crossCorrelation]
    rw [map_range_getD _ _ _ hlag,
      foldl_complexAdd_eq_sum (fun n => complexMultiply (s1.getD n 0) (conjSample (s2.getD (n + lag) 0)))]
    have hz : (⟨0, 0⟩ : ℂ) = 0 := by
      apply Complex.ext <;> simp
    rw [hz, zero_add]
    exact Finset.sum_congr rfl fun n _ => by
      rw [complexMultiply_eq_mul, conjSample_eq_conj]

/-- Claim C2 (code bug): already on the one-sample signal `[1]` at order
`a = 1/4` the round trip `inverse(transform(x, a), a)` returns the single
sample `sqrt(1/((sin(π/8)+ε)(sin(π/8)-ε))) ≈ 2.6131 > 2`, not `1`: both
passes multiply by the normalization `sqrt(|csc φ|/N)` and the chirp
convolution is not unitary, so the inverse property asserted by the spec
(and by the repository's own test suite, test 4) fails by more than 1.6 —
far beyond the claimed `1e-6` tolerance. -/
theorem claim_C2_roundtrip_diverges :
    (transform [(1 : ℂ)] (1 / 4)).bind (fun y => inverse y (1 / 4))
      = some [(⟨Real.sqrt (1 / ((Real.sin (Real.pi / 8) + fftEpsilon)
          * (Real.sin (Real.pi / 8) - fftEpsilon))), 0⟩ : ℂ)]
    ∧ (2 : ℝ) < Real.sqrt (1 / ((Real.sin (Real.pi / 8) + fftEpsilon)
        * (Real.sin (Real.pi / 8) - fftEpsilon))) := by
  have hπ8pos : (0 : ℝ) < Real.pi / 8 := by positivity
  have hub : Real.sin (Real.pi / 8) < 2 / 5 := by
    have h1 := Real.sin_lt hπ8pos
    have h2 := Real.pi_lt_d2
    linarith
  have hlb : (1 / 4 : ℝ) ≤ Real.sin (Real.pi / 8) := by
    have hj := Real.mul_le_sin (show (0 : ℝ) ≤ Real.pi / 8 by positivity)
      (show Real.pi / 8 ≤ Real.pi / 2 by linarith [Real.pi_pos])
    have hpi0 : Real.pi ≠ 0 := ne_of_gt Real.pi_pos
    have heq : 2 / Real.pi * (Real.pi / 8) = 1 / 4 := by
      field_simp
      norm_num
    linarith [heq ▸ hj]
  have heps_lt : fftEpsilon < Real.sin (Real.pi / 8) := by
    have h1 : fftEpsilon < 1 / 4 := by norm_num [fftEpsilon]
    linarith
  have hpos : (0 : ℝ) < Real.sin (Real.pi / 8) + fftEpsilon := by
    linarith [fftEpsilon_pos]
  have hpos2 : (0 : ℝ) < Real.sin (Real.pi / 8) - fftEpsilon := by
    linarith
  have hA : transform [(1 : ℂ)] (1 / 4)
      = some [(⟨Real.sqrt |1 / (Real.sin (Real.pi / 8) + fftEpsilon)|, 0⟩ : ℂ)] := by
    rw [transform_general [(1 : ℂ)] (1 / 4) (by simp)
        (by rw [normalizeAlpha_quarter]; intro hc; rw [abs_lt] at hc; norm_num [fftEpsilon] at hc)
        (by rw [normalizeAlpha_quarter]; intro hc; rw [abs_lt] at hc; norm_num [fftEpsilon] at hc)
        (by rw [normalizeAlpha_quarter]; intro hc; rw [abs_lt] at hc; norm_num [fftEpsilon] at hc),
      normalizeAlpha_quarter, computeFractionalFFT_singleton]
    have harg : (1 / 4 : ℝ) * Real.pi / 2 = Real.pi / 8 := by ring
    rw [harg]
    simp
  have hB : inverse [(⟨Real.sqrt |1 / (Real.sin (Real.pi / 8) + fftEpsilon)|, 0⟩ : ℂ)] (1 / 4)
      = some [(⟨Real.sqrt |1 / (Real.sin (Real.pi / 8) + fftEpsilon)|
          * Real.sqrt |1 / (-Real.sin (Real.pi / 8) + fftEpsilon)|, 0⟩ : ℂ)] := by
    unfold inverse
    rw [transform_general _ (-(1 / 4)) (by simp)
        (by rw [normalizeAlpha_neg_quarter]; intro hc; rw [abs_lt] at hc; norm_num [fftEpsilon] at hc)
        (by rw [normalizeAlpha_neg_quarter]; intro hc; rw [abs_lt] at hc; norm_num [fftEpsilon] at hc)
        (by rw [normalizeAlpha_neg_quarter]; intro hc; rw [abs_lt] at hc; norm_num [fftEpsilon] at hc),
      normalizeAlpha_neg_quarter, computeFractionalFFT_singleton]
    have harg : (15 / 4 : ℝ) * Real.pi / 2 = -(Real.pi / 8) + 2 * Real.pi := by ring
    rw [harg, Real.sin_add_two_pi, Real.sin_neg]
    simp
  have habs1 : |1 / (Real.sin (Real.pi / 8) + fftEpsilon)| = 1 / (Real.sin (Real.pi / 8) + fftEpsilon) :=
    abs_of_pos (one_div_pos.mpr hpos)
  have habs2 : |1 / (-Real.sin (Real.pi / 8) + fftEpsilon)| = 1 / (Real.sin (Real.pi / 8) - fftEpsilon) := by
    rw [abs_div, abs_one, abs_of_neg (show -Real.sin (Real.pi / 8) + fftEpsilon < 0 by linarith)]
    ring_nf
  have hprod : Real.sqrt |1 / (Real.sin (Real.pi / 8) + fftEpsilon)|
      * Real.sqrt |1 / (-Real.sin (Real.pi / 8) + fftEpsilon)|
      = Real.sqrt (1 / ((Real.sin (Real.pi / 8) + fftEpsilon)
          * (Real.sin (Real.pi / 8) - fftEpsilon))) := by
    rw [habs1, habs2, ← Real.sqrt_mul (le_of_lt (one_div_pos.mpr hpos))]
    congr 1
    rw [div_mul_div_comm, one_mul]
  constructor
  · rw [hA]
    have hbind : (some [(⟨Real.sqrt |1 / (Real.sin (Real.pi / 8) + fftEpsilon)|, 0⟩ : ℂ)]).bind
        (fun y => inverse y (1 / 4))
        = inverse [(⟨Real.sqrt |1 / (Real.sin (Real.pi / 8) + fftEpsilon)|, 0⟩ : ℂ)] (1 / 4) := rfl
    rw [hbind, hB, hprod]
  · rw [Real.lt_sqrt (by norm_num)]
    have hppos : 0 < (Real.sin (Real.pi / 8) + fftEpsilon) * (Real.sin (Real.pi / 8) - fftEpsilon) :=
      mul_pos hpos hpos2
    rw [lt_div_iff₀ hppos]
    have hs2 : Real.sin (Real.pi / 8) * Real.sin (Real.pi / 8) < 4 / 25 := by nlinarith
    have he2 : (0 : ℝ) ≤ fftEpsilon * fftEpsilon :=
      le_of_lt (mul_pos fftEpsilon_pos fftEpsilon_pos)
    nlinarith

theorem claim_C9_witness :
    (crossCorrelation [(⟨2, 1⟩ : ℂ)] [(⟨0, 3⟩ : ℂ)]).length
        = min [(⟨2, 1⟩ : ℂ)].length [(⟨0, 3⟩ : ℂ)].length ∧
      (crossCorrelation [(⟨2, 1⟩ : ℂ)] [(⟨0, 3⟩ : ℂ)]).getD 0 0
        = ∑ n ∈ Finset.range (min [(⟨2, 1⟩ : ℂ)].length [(⟨0, 3⟩ : ℂ)].length - 0),
            [(⟨2, 1⟩ : ℂ)].getD n 0 * (starRingEnd ℂ) ([(⟨0, 3⟩ : ℂ)].getD (n + 0) 0) :=
  claim_C9_crossCorrelation [(⟨2, 1⟩ : ℂ)] [(⟨0, 3⟩ : ℂ)] 0 (by simp) (by simp) (by simp)

/-! ### Phase-inversion detection (claim C7) -/

theorem atan2_sin_cos (θ : ℝ) (h1 : -Real.pi < θ) (h2 : θ ≤ Real.pi) :
    atan2 (Real.sin θ) (Real.cos θ) = θ := by
  unfold atan2
  have hmk : (⟨Real.cos θ, Real.sin θ⟩ : ℂ) = Complex.cos θ + Complex.sin θ * Complex.I := by
    rw [Complex.mk_eq_add_mul_I, Complex.ofReal_cos, Complex.ofReal_sin]
  rw [hmk, Complex.arg_cos_add_sin_mul_I ⟨h1, h2⟩]

theorem phasesOf_length (l : List ℂ) : (phasesOf l).length = l.length := by
  simp [phasesOf]

theorem detectPhaseInversion_of_lt (p1 p2 : List ℝ) (h : min p1.length p2.length < 3) :
    detectPhaseInversion p1 p2 = 0 := by
  simp only [detectPhaseInversion]
  rw [if_pos h]

theorem detectPhaseInversion_of_ge (p1 p2 : List ℝ) (h : 3 ≤ min p1.length p2.length) :
    detectPhaseInversion p1 p2
      = (((List.range (min p1.length p2.length - 1)).filter fun i =>
          decide (normalizedPhaseDiff p1 i * normalizedPhaseDiff p2 i < -(1 / 2 : ℝ))).length : ℝ)
        / ((min p1.length p2.length - 1 : ℕ) : ℝ) := by
  simp only [detectPhaseInversion]
  rw [if_neg (by omega)]

/-- The products of normalized phase differences for the two phase sequences
of the C7 counterexample: every step has opposite signs but a product of only
`-1/100`, above the `-0.5` threshold the code actually uses. -/
theorem c7_step_products : ∀ i, i < 4 →
    normalizedPhaseDiff [0, 1 / 10, 0, 1 / 10, 0] i
      * normalizedPhaseDiff [0, -(1 / 10), 0, -(1 / 10), 0] i = -(1 / 100) := by
  have h3 := Real.pi_gt_three
  have ha := atan2_sin_cos (1 / 10) (by linarith) (by linarith)
  have hb := atan2_sin_cos (-(1 / 10)) (by linarith) (by linarith)
  intro i hi
  interval_cases i <;>
    (simp only [normalizedPhaseDiff, List.getD_cons_zero, List.getD_cons_succ, sub_zero,
       zero_sub, sub_neg_eq_add, zero_add]
     rw [ha, hb]
     norm_num)

theorem c7_code_fraction :
    detectPhaseInversion [0, 1 / 10, 0, 1 / 10, 0] [0, -(1 / 10), 0, -(1 / 10), 0] = 0 := by
  simp only [detectPhaseInversion, List.length_cons, List.length_nil]
  rw [if_neg (by norm_num)]
  have hfilter : ((List.range (min 5 5 - 1)).filter fun i =>
      decide (normalizedPhaseDiff [0, 1 / 10, 0, 1 / 10, 0] i
        * normalizedPhaseDiff [0, -(1 / 10), 0, -(1 / 10), 0] i < -(1 / 2 : ℝ))) = [] := by
    rw [show min 5 5 - 1 = 4 from rfl, show List.range 4 = [0, 1, 2, 3] from rfl]
    rw [List.filter_cons, List.filter_cons, List.filter_cons, List.filter_cons, List.filter_nil]
    rw [decide_eq_false (by rw [c7_step_products 0 (by norm_num)]; norm_num),
      decide_eq_false (by rw [c7_step_products 1 (by norm_num)]; norm_num),
      decide_eq_false (by rw [c7_step_products 2 (by norm_num)]; norm_num),
      decide_eq_false (by rw [c7_step_products 3 (by norm_num)]; norm_num)]
    simp
  rw [hfilter]
  simp

theorem c7_spec_fraction :
    specSignDisagreeFraction [0, 1 / 10, 0, 1 / 10, 0] [0, -(1 / 10), 0, -(1 / 10), 0] = 1 := by
  simp only [specSignDisagreeFraction, List.length_cons, List.length_nil]
  have hfilter : ((List.range (min 5 5 - 1)).filter fun i =>
      decide (normalizedPhaseDiff [0, 1 / 10, 0, 1 / 10, 0] i
        * normalizedPhaseDiff [0, -(1 / 10), 0, -(1 / 10), 0] i < (0 : ℝ))) = [0, 1, 2, 3] := by
    rw [show min 5 5 - 1 = 4 from rfl, show List.range 4 = [0, 1, 2, 3] from rfl]
    rw [List.filter_cons, List.filter_cons, List.filter_cons, List.filter_cons, List.filter_nil]
    rw [decide_eq_true (by rw [c7_step_products 0 (by norm_num)]; norm_num),
      decide_eq_true (by rw [c7_step_products 1 (by norm_num)]; norm_num),
      decide_eq_true (by rw [c7_step_products 2 (by norm_num)]; norm_num),
      decide_eq_true (by rw [c7_step_products 3 (by norm_num)]; norm_num)]
    simp
  rw [hfilter]
  norm_num

theorem c7_phases_first :
    phasesOf [(⟨Real.cos 0, Real.sin 0⟩ : ℂ), ⟨Real.cos (1 / 10), Real.sin (1 / 10)⟩,
        ⟨Real.cos 0, Real.sin 0⟩, ⟨Real.cos (1 / 10), Real.sin (1 / 10)⟩,
        ⟨Real.cos 0, Real.sin 0⟩]
      = [0, 1 / 10, 0, 1 / 10, 0] := by
  have h3 := Real.pi_gt_three
  simp only [phasesOf, List.map_cons, List.map_nil]
  rw [atan2_sin_cos 0 (by linarith) (by linarith),
    atan2_sin_cos (1 / 10) (by linarith) (by linarith)]

theorem c7_phases_second :
    phasesOf [(⟨Real.cos 0, Real.sin 0⟩ : ℂ), ⟨Real.cos (-(1 / 10)), Real.sin (-(1 / 10))⟩,
        ⟨Real.cos 0, Real.sin 0⟩, ⟨Real.cos (-(1 / 10)), Real.sin (-(1 / 10))⟩,
        ⟨Real.cos 0, Real.sin 0⟩]
      = [0, -(1 / 10), 0, -(1 / 10), 0] := by
  have h3 := Real.pi_gt_three
  simp only [phasesOf, List.map_cons, List.map_nil]
  rw [atan2_sin_cos 0 (by linarith) (by linarith),
    atan2_sin_cos (-(1 / 10)) (by linarith) (by linarith)]

/-- Claim C7 counterexample: two transforms of the same signal whose
successive phase differences have opposite signs at every one of the 4 steps
(sign-disagreement fraction 1 > 0.6), yet `detectTemporalAnomalies` reports
nothing because every product of normalized differences is `-1/100`, which is
not below the `-0.5` the code actually compares against. -/
theorem claim_C7_counterexample :
    detectTemporalAnomalies
        [("s", [(⟨Real.cos 0, Real.sin 0⟩ : ℂ), ⟨Real.cos (1 / 10), Real.sin (1 / 10)⟩,
          ⟨Real.cos 0, Real.sin 0⟩, ⟨Real.cos (1 / 10), Real.sin (1 / 10)⟩,
          ⟨Real.cos 0, Real.sin 0⟩])]
        [("s", [(⟨Real.cos 0, Real.sin 0⟩ : ℂ), ⟨Real.cos (-(1 / 10)), Real.sin (-(1 / 10))⟩,
          ⟨Real.cos 0, Real.sin 0⟩, ⟨Real.cos (-(1 / 10)), Real.sin (-(1 / 10))⟩,
          ⟨Real.cos 0, Real.sin 0⟩])] = []
      ∧ specSignDisagreeFraction
          (phasesOf [(⟨Real.cos 0, Real.sin 0⟩ : ℂ), ⟨Real.cos (1 / 10), Real.sin (1 / 10)⟩,
            ⟨Real.cos 0, Real.sin 0⟩, ⟨Real.cos (1 / 10), Real.sin (1 / 10)⟩,
            ⟨Real.cos 0, Real.sin 0⟩])
          (phasesOf [(⟨Real.cos 0, Real.sin 0⟩ : ℂ), ⟨Real.cos (-(1 / 10)), Real.sin (-(1 / 10))⟩,
            ⟨Real.cos 0, Real.sin 0⟩, ⟨Real.cos (-(1 / 10)), Real.sin (-(1 / 10))⟩,
            ⟨Real.cos 0, Real.sin 0⟩]) = 1
      ∧ (0.6 : ℝ) < 1 := by
  refine ⟨?_, ?_, by norm_num⟩
  · simp only [detectTemporalAnomalies, List.filterMap_cons]
    rw [show List.lookup "s"
        [("s", [(⟨Real.cos 0, Real.sin 0⟩ : ℂ), ⟨Real.cos (-(1 / 10)), Real.sin (-(1 / 10))⟩,
          ⟨Real.cos 0, Real.sin 0⟩, ⟨Real.cos (-(1 / 10)), Real.sin (-(1 / 10))⟩,
          ⟨Real.cos 0, Real.sin 0⟩])]
        = some [(⟨Real.cos 0, Real.sin 0⟩ : ℂ), ⟨Real.cos (-(1 / 10)), Real.sin (-(1 / 10))⟩,
          ⟨Real.cos 0, Real.sin 0⟩, ⟨Real.cos (-(1 / 10)), Real.sin (-(1 / 10))⟩,
          ⟨Real.cos 0, Real.sin 0⟩] from by simp [List.lookup]]
    dsimp only
    rw [c7_phases_first, c7_phases_second, c7_code_fraction]
    rw [if_neg (by norm_num)]
    simp
  · rw [c7_phases_first, c7_phases_second]
    exact c7_spec_fraction

/-- Claim C7, amended: an anomaly is reported for a signal exactly when it is
present in both maps, at least 3 samples overlap, and the fraction of
successive steps at which the *product* of the two normalized phase
differences is below `-0.5` (not mere sign disagreement) exceeds `0.6`; the
reported strength equals that fraction. -/
theorem claim_C7_amended_characterization (tp ep : List (String × List ℂ)) (a : AnomalyRecord) :
    a ∈ detectTemporalAnomalies tp ep ↔
      ∃ name tr er, (name, tr) ∈ tp ∧ ep.lookup name = some er ∧
        3 ≤ min tr.length er.length ∧
        0.6 < (((List.range (min tr.length er.length - 1)).filter fun i =>
            decide (normalizedPhaseDiff (phasesOf tr) i * normalizedPhaseDiff (phasesOf er) i
              < -(1 / 2 : ℝ))).length : ℝ) / ((min tr.length er.length - 1 : ℕ) : ℝ) ∧
        a = ⟨name, "temporal_phase_inversion",
          (((List.range (min tr.length er.length - 1)).filter fun i =>
            decide (normalizedPhaseDiff (phasesOf tr) i * normalizedPhaseDiff (phasesOf er) i
              < -(1 / 2 : ℝ))).length : ℝ) / ((min tr.length er.length - 1 : ℕ) : ℝ),
          "Future states appear to influence past states"⟩ := by
  have hlen : ∀ (tr er : List ℂ),
      min (phasesOf tr).length (phasesOf er).length = min tr.length er.length := by
    intro tr er
    rw [phasesOf_length, phasesOf_length]
  constructor
  · intro hmem
    unfold detectTemporalAnomalies at hmem
    obtain ⟨entry, hin, hf⟩ := List.mem_filterMap.mp hmem
    obtain ⟨name, tr⟩ := entry
    dsimp only at hf
    cases hlk : ep.lookup name with
    | none => rw [hlk] at hf; simp at hf
    | some er =>
      rw [hlk] at hf
      dsimp only at hf
      by_cases h06 : detectPhaseInversion (phasesOf tr) (phasesOf er) > 0.6
      · rw [if_pos h06] at hf
        have h3 : 3 ≤ min tr.length er.length := by
          by_contra hlt
          push_neg at hlt
          have h0 := detectPhaseInversion_of_lt (phasesOf tr) (phasesOf er)
            (by rw [hlen]; omega)
          rw [h0] at h06
          norm_num at h06
        have hval := detectPhaseInversion_of_ge (phasesOf tr) (phasesOf er)
          (by rw [hlen]; omega)
        rw [hlen] at hval
        refine ⟨name, tr, er, hin, hlk, h3, ?_, ?_⟩
        · rw [← hval]
          exact h06
        · rw [← Option.some.inj hf, hval]
      · rw [if_neg h06] at hf
        simp at hf
  · rintro ⟨name, tr, er, hin, hlk, h3, h06, ha⟩
    have hval := detectPhaseInversion_of_ge (phasesOf tr) (phasesOf er) (by rw [hlen]; omega)
    rw [hlen] at hval
    unfold detectTemporalAnomalies
    apply List.mem_filterMap.mpr
    refine ⟨(name, tr), hin, ?_⟩
    dsimp only
    rw [hlk]
    dsimp only
    rw [if_pos (by rw [hval]; exact h06), ha, hval]

/-! ### Causal-inversion detection (claim C10) -/

theorem foldl_max_choice (t : List ℝ) (h : ℝ) : t.foldl max h = h ∨ t.foldl max h ∈ t := by
  induction t generalizing h with
  | nil => left; rfl
  | cons x t ih =>
    rw [List.foldl_cons]
    rcases ih (max h x) with h1 | h1
    · rcases max_choice h x with h2 | h2
      · left
        rw [h1, h2]
      · right
        rw [h1, h2]
        exact List.mem_cons_self x t
    · right
      exact List.mem_cons_of_mem x h1

theorem maxOf_mem (l : List ℝ) (h : l ≠ []) : maxOf l ∈ l := by
  match l with
  | x :: t =>
    simp only [maxOf]
    rcases foldl_max_choice t x with h1 | h1
    · rw [h1]
      exact List.mem_cons_self x t
    · exact List.mem_cons_of_mem x h1

theorem getD_indexOfReal (a : ℝ) (l : List ℝ) (h : a ∈ l) :
    l.getD (indexOfReal a l) 0 = a := by
  induction l with
  | nil => simp at h
  | cons x t ih =>
    by_cases hx : x = a
    · simp [indexOfReal, hx]
    · have ht : a ∈ t := by
        rcases List.mem_cons.mp h with h1 | h1
        · exact absurd h1.symm hx
        · exact h1
      simp only [indexOfReal, if_neg hx, List.getD_cons_succ]
      exact ih ht

/-- Claim C10, amended: every record produced by `detectCausalInversions`
comes from some correlation in the map, and its strength is exactly 1
whenever that correlation's maximum magnitude is nonzero (the peak index is
the index of the maximum, so the ratio is `max/max`); when the maximum is 0
(an all-zero correlation) a record is still produced and its strength is the
division `0 / 0` — `NaN` in JavaScript, `0` in the real-division
embedding. -/
theorem claim_C10_amended_strength (m : List (String × List ℂ)) (r : InversionRecord)
    (hr : r ∈ detectCausalInversions m) :
    ∃ name corr, (name, corr) ∈ m ∧ r.signalPair = name ∧
      (maxOf (corr.map magnitudeOf) ≠ 0 → r.strength = 1) ∧
      (maxOf (corr.map magnitudeOf) = 0 → r.strength = 0) := by
  unfold detectCausalInversions at hr
  obtain ⟨entry, hin, hf⟩ := List.mem_filterMap.mp hr
  dsimp only at hf
  split at hf
  · refine ⟨entry.1, entry.2, hin, ?_, ?_, ?_⟩
    · rw [← Option.some.inj hf]
    · intro hmax
      rw [← Option.some.inj hf]
      dsimp only
      have hne : entry.2.map magnitudeOf ≠ [] := by
        intro hnil
        rw [hnil] at hmax
        exact hmax rfl
      rw [getD_indexOfReal _ _ (maxOf_mem _ hne), div_self hmax]
    · intro hmax
      rw [← Option.some.inj hf]
      dsimp only
      rw [hmax, div_zero]
  · simp at hf

theorem detectCausal_zero_eval :
    detectCausalInversions [("p", List.replicate 6 (0 : ℂ))]
      = [⟨"p", -3, 0, "causal_inversion", "Effect appears 3 steps before cause"⟩] := by
  unfold detectCausalInversions
  rw [List.filterMap_cons]
  have hmag : magnitudeOf (0 : ℂ) = 0 := by
    simp [magnitudeOf]
  have hmags : (List.replicate 6 (0 : ℂ)).map magnitudeOf = List.replicate 6 (0 : ℝ) := by
    rw [List.map_replicate, hmag]
  dsimp only
  rw [hmags]
  have hmax : maxOf (List.replicate 6 (0 : ℝ)) = 0 := by
    simp [maxOf, List.replicate]
  have hidx : indexOfReal (maxOf (List.replicate 6 (0 : ℝ))) (List.replicate 6 (0 : ℝ)) = 0 := by
    rw [hmax]
    simp [indexOfReal, List.replicate]
  rw [hidx, hmax]
  rw [if_pos (by simp)]
  simp only [List.filterMap_nil]
  congr 1
  simp only [List.length_replicate, InversionRecord.mk.injEq]
  refine ⟨trivial, by decide, ?_, trivial, by decide⟩
  rw [div_zero]

/-- Claim C10 counterexample: an all-zero correlation of length 6 produces a
CausalInversion record whose strength is *not* 1 — the peak magnitude and the
maximum are both 0, so the strength is the division `0 / 0` (`NaN` in
JavaScript, `0` in the real-division embedding). -/
theorem claim_C10_counterexample :
    detectCausalInversions [("p", List.replicate 6 (0 : ℂ))]
        = [⟨"p", -3, 0, "causal_inversion", "Effect appears 3 steps before cause"⟩]
      ∧ ((⟨"p", -3, 0, "causal_inversion",
          "Effect appears 3 steps before cause"⟩ : InversionRecord).strength ≠ 1) :=
  ⟨detectCausal_zero_eval, by norm_num⟩

theorem claim_C10_witness :
    ∃ name corr, (name, corr) ∈ [("p", List.replicate 6 (0 : ℂ))] ∧
      (⟨"p", -3, 0, "causal_inversion",
        "Effect appears 3 steps before cause"⟩ : InversionRecord).signalPair = name ∧
      (maxOf (corr.map magnitudeOf) ≠ 0 →
        (⟨"p", -3, 0, "causal_inversion",
          "Effect appears 3 steps before cause"⟩ : InversionRecord).strength = 1) ∧
      (maxOf (corr.map magnitudeOf) = 0 →
        (⟨"p", -3, 0, "causal_inversion",
          "Effect appears 3 steps before cause"⟩ : InversionRecord).strength = 0) :=
  claim_C10_amended_strength [("p", List.replicate 6 (0 : ℂ))] _
    (by rw [detectCausal_zero_eval]; exact List.mem_singleton.mpr rfl)

end

end Substance
